import Mathlib

/-!
Verification of the PlanLlama client (TypeScript repository `planllama-js`,
main implementation in `src/unnamed/part_003`, class `PlanLlama`).

The development shallowly embeds the client's algorithmic core:

* the worker execution engine (`setupEventHandlers`'s `work_request`
  listener): handler lookup, the started notification, the per-job
  deadline timer and the `isCancelled` guard that makes the outcome
  acknowledgement unique;
* the request/response correlator (`request`): the pair of deliver-once
  `job_completed_<id>` / `job_failed_<id>` listeners, each of which
  deregisters the other on first delivery;
* the acknowledgement handlers of the public operations (`publish`,
  `request`, `schedule`, `publishBatch`, `getQueueSize`,
  `getTemporaryToken`, `fetchCurrentStepResults`, `storeStepResult`,
  `getJobById`);
* worker registration (`work`) and the re-registration loop run on the
  `client_ready` event after a reconnect;
* the workflow run driver registered by `workflow(name, steps)`:
  `cycleCheck` (Kahn's algorithm plus the undefined-dependency check),
  `getNextSteps`, `runSteps` and `runStep`.

Job payloads and handler results are opaque in the source (`any`); they
are modelled by a type parameter `V`.  Handler functions themselves are
opaque values (type parameter `H`) where only their identity matters.
-/

namespace PlanLlama

/-! ## Worker engine (`setupEventHandlers`, lines 226-309)

The `work_request` listener receives a `Job` and an acknowledgement
callback.  The fields of `Job` that the listener reads are its `id`,
its `name` and its `expireInSeconds`; the rest of the payload is
irrelevant to the control flow and is not modelled.  `expireInSeconds`
is an optional JS number; the model uses `Option Int` (`NaN` is not
modelled; the only falsy numeric value modelled is `0`, which is the
one the specification talks about). -/

structure Job where
  id : String
  name : String
  expireInSeconds : Option Int
deriving DecidableEq, Repr

/-- `job.expireInSeconds ||= 900` (line 251): the logical-or assignment
replaces a falsy value (absent or `0`) with the default `900`. -/
def effectiveExpire : Option Int → Int
  | none => 900
  | some v => if v = 0 then 900 else v

/-- The millisecond duration handed to `setTimeout` (line 260):
`job.expireInSeconds * 1000` after the `||=` defaulting. -/
def timerMillis (j : Job) : Int :=
  effectiveExpire j.expireInSeconds * 1000

/-- Reply sent through the delivery acknowledgement callback
(`callback?.({status: "ok", result})` / `callback?.({status: "error", error})`). -/
inductive AckReply (V : Type) where
  | ok (result : V)
  | error (msg : String)
deriving DecidableEq, Repr

/-- Observable actions of the `work_request` listener, in emission order:
socket emissions (`job_failed`, `job_started`, `job_completed`), outward
lifecycle events (`super.emit`), and acknowledgement-callback invocations. -/
inductive WEvent (V : Type) where
  | jobFailedMsg (jobId : String) (error : String)
  | jobStarted (jobName jobId : String)
  | jobCompleted (jobName jobId : String) (result : V)
  | lifecycle (kind : String)
  | ack (r : AckReply V)
deriving DecidableEq, Repr

def WEvent.isAck {V : Type} : WEvent V → Bool
  | .ack _ => true
  | _ => false

def WEvent.isJobCompleted {V : Type} : WEvent V → Bool
  | .jobCompleted _ _ _ => true
  | _ => false

def WEvent.isJobStarted {V : Type} : WEvent V → Bool
  | .jobStarted _ _ => true
  | _ => false

/-- The race the listener coordinates: the handler promise settles
(resolve or reject) and the deadline timer fires, in some order. -/
inductive HandlerEvent (V : Type) where
  | resolve (v : V)
  | reject (errMsg : String)
  | timeoutFire
deriving DecidableEq, Repr

def HandlerEvent.isSettle {V : Type} : HandlerEvent V → Bool
  | .resolve _ => true
  | .reject _ => true
  | .timeoutFire => false

/-- Which interleavings the JS runtime can produce, tracked by two flags:
a promise settles at most once, `setTimeout` fires at most once, and the
settlement path runs `clearTimeout` (lines 266, 278) before the timer can
fire, so the timer never fires after a settlement. -/
def validAux {V : Type} (settled timedOut : Bool) : List (HandlerEvent V) → Bool
  | [] => true
  | .resolve _ :: r => !settled && validAux true timedOut r
  | .reject _ :: r => !settled && validAux true timedOut r
  | .timeoutFire :: r => !settled && !timedOut && validAux settled true r

/-- The deadline-failure acknowledgement (lines 255-258):
`{status: "error", error: `Job '<name>' timed out after <n>s`}`. -/
def timeoutAckMsg (j : Job) : String :=
  "Job \x27" ++ j.name ++ "\x27 timed out after " ++
    toString (effectiveExpire j.expireInSeconds) ++ "s"

/-- One step of the race, given the `isCancelled` guard flag:

* timer fires (lines 253-260): set `isCancelled`, acknowledge the
  deadline error, emit the outward `failed` event;
* handler resolves (lines 264-275): if cancelled, do nothing; otherwise
  emit `job_completed`, the outward `completed` event, and acknowledge
  success;
* handler rejects (lines 276-285): if cancelled, do nothing; otherwise
  acknowledge the error and emit the outward `failed` event. -/
def handlerStep {V : Type} (j : Job) (cancelled : Bool) :
    HandlerEvent V → List (WEvent V) × Bool
  | .timeoutFire =>
      ([.ack (.error (timeoutAckMsg j)), .lifecycle "failed"], true)
  | .resolve v =>
      if cancelled then ([], cancelled)
      else ([.jobCompleted j.name j.id v, .lifecycle "completed", .ack (.ok v)], cancelled)
  | .reject e =>
      if cancelled then ([], cancelled)
      else ([.ack (.error e), .lifecycle "failed"], cancelled)

def processTrace {V : Type} (j : Job) (cancelled : Bool) :
    List (HandlerEvent V) → List (WEvent V)
  | [] => []
  | e :: rest =>
      let (evs, cancelled') := handlerStep j cancelled e
      evs ++ processTrace j cancelled' rest

/-- The whole `work_request` listener (lines 231-295).  `registry` is the
set of names present in `jobHandlers`.  If no handler is registered
(lines 235-242) the listener emits `job_failed` with the
`No handler registered` message and returns; otherwise it emits
`job_started` and the outward `active` event (lines 247-248) and then
plays out the handler/timer race. -/
def handleWorkRequest {V : Type} (registry : List String) (j : Job)
    (trace : List (HandlerEvent V)) : List (WEvent V) :=
  if j.name ∈ registry then
    [.jobStarted j.name j.id, .lifecycle "active"] ++ processTrace j false trace
  else
    [.jobFailedMsg j.id ("No handler registered for job: " ++ j.name)]

/-! ## Correlator (`request`, lines 374-418)

After an `ok` acknowledgement carrying a job id, `request` registers two
deliver-once listeners, `job_completed_<id>` and `job_failed_<id>`
(lines 408-409).  Whichever fires first deregisters the other
(lines 395-398, 402-405) and settles the promise exactly once.  The
correlator state tracks whether each listener is still registered and
the settlement (if any). -/

/-- A per-job-id notification from the server:
`job_completed_<id>` carries the result payload, `job_failed_<id>`
carries `{error}` where `error` may be absent. -/
inductive Notif (V : Type) where
  | completed (payload : V)
  | failed (err : Option String)
deriving DecidableEq, Repr

structure CorrState (V : Type) where
  completedActive : Bool
  failedActive : Bool
  outcome : Option (Except String V)
deriving Repr

/-- Delivery of one notification.  A `once` listener only runs while
registered and deregisters itself when it fires; the handler bodies
(`jobSuccess` / `jobFailed`) each remove the complementary listener
before settling.  `jobFailed` rejects with
`new Error(data.error || "Job failed")` (line 406): an absent `error`
falls back to `"Job failed"`. -/
def corrStep {V : Type} (st : CorrState V) : Notif V → CorrState V
  | .completed v =>
      if st.completedActive then
        { completedActive := false, failedActive := false,
          outcome := some (.ok v) }
      else st
  | .failed e =>
      if st.failedActive then
        { completedActive := false, failedActive := false,
          outcome := some (.error (e.getD "Job failed")) }
      else st

def corrRun {V : Type} (notifs : List (Notif V)) : CorrState V :=
  notifs.foldl corrStep ⟨true, true, none⟩

/-! ## Acknowledgement shapes of the public operations

`SocketResponse` models the acknowledgement object the server passes to
the callback of each `emit`.  Every field the modelled operations read
is optional.  JS truthiness of a string field is `some s` with `s` not
empty; `durationSeconds !== undefined` is plain `isSome`. -/

structure SocketResponse (V : Type) where
  status : Option String
  error : Option String
  jobId : Option String
  batchId : Option String
  queueSize : Option Int
  job : Option V
  stepResults : Option (List (String × V))
  token : Option String
  expiresAt : Option String
  durationSeconds : Option Int
deriving DecidableEq, Repr

/-- JS truthiness of an optional string (the empty string is falsy). -/
def optStrTruthy : Option String → Bool
  | some s => !s.isEmpty
  | none => false

/-- `new Error(response.error)`: an absent `error` field yields an
`Error` whose message is the empty string. -/
def serverErr {V : Type} (r : SocketResponse V) : String :=
  r.error.getD ""

/-- `publish` acknowledgement handling (lines 351-359): server error →
reject with the carried message; `ok` with a (truthy) `jobId` → resolve
the id; anything else → reject `"Invalid response from server"`. -/
def publishAck {V : Type} (r : SocketResponse V) : Except String String :=
  if r.status = some "error" then .error (serverErr r)
  else if r.status = some "ok" ∧ optStrTruthy r.jobId then .ok (r.jobId.getD "")
  else .error "Invalid response from server"

/-- The initial-acknowledgement shape check of `request` (lines 387-414),
before the correlation listeners take over: same branches as `publish`,
with the malformed branch rejecting `"Invalid response from server"`
(the `cause` option does not change the message). -/
def requestShapeAck {V : Type} (r : SocketResponse V) : Except String String :=
  if r.status = some "error" then .error (serverErr r)
  else if r.status = some "ok" ∧ optStrTruthy r.jobId then .ok (r.jobId.getD "")
  else .error "Invalid response from server"

/-- `request` end to end: shape-check the acknowledgement, then (on the
`ok`+`jobId` branch) run the correlator over the notification sequence.
Result: `.error msg` for a synchronous rejection, `.ok st` for the
correlator state after the notifications. -/
def requestModel {V : Type} (r : SocketResponse V) (notifs : List (Notif V)) :
    Except String (CorrState V) :=
  match requestShapeAck r with
  | .error m => .error m
  | .ok _ => .ok (corrRun notifs)

/-- `schedule` acknowledgement handling (lines 444-452). -/
def scheduleAck {V : Type} (r : SocketResponse V) : Except String Unit :=
  if r.status = some "error" then .error (serverErr r)
  else if r.status = some "ok" then .ok ()
  else .error "Invalid response from server"

/-- `publishBatch` acknowledgement handling (lines 516-524). -/
def publishBatchAck {V : Type} (r : SocketResponse V) : Except String String :=
  if r.status = some "error" then .error (serverErr r)
  else if r.status = some "ok" ∧ optStrTruthy r.batchId then .ok (r.batchId.getD "")
  else .error "Invalid response from server"

/-- `getQueueSize` acknowledgement handling (lines 620-627):
`response.queueSize || 0` maps an absent (or zero) size to `0`. -/
def getQueueSizeAck {V : Type} (r : SocketResponse V) : Except String Int :=
  if r.status = some "error" then .error (serverErr r)
  else if r.status = some "ok" then
    .ok (match r.queueSize with | some n => if n = 0 then 0 else n | none => 0)
  else .error "Invalid response from server"

/-- `getTemporaryToken` acknowledgement handling (lines 658-674). -/
def getTemporaryTokenAck {V : Type} (r : SocketResponse V) :
    Except String (String × String × Int) :=
  if r.status = some "error" then .error (serverErr r)
  else if r.status = some "ok" ∧ optStrTruthy r.token ∧ optStrTruthy r.expiresAt ∧
      r.durationSeconds.isSome then
    .ok (r.token.getD "", r.expiresAt.getD "", r.durationSeconds.getD 0)
  else .error "Invalid response from server"

/-- `fetchCurrentStepResults` acknowledgement handling (lines 690-697):
on `ok` with a (truthy, i.e. present) `stepResults` object, resolve with
`new Map(Object.entries(response.stepResults))`. -/
def fetchStepResultsAck {V : Type} (r : SocketResponse V) :
    Except String (List (String × V)) :=
  if r.status = some "error" then .error (serverErr r)
  else if r.status = some "ok" ∧ r.stepResults.isSome then .ok (r.stepResults.getD [])
  else .error "Invalid response from server"

/-- `storeStepResult` acknowledgement handling (lines 717-724). -/
def storeStepResultAck {V : Type} (r : SocketResponse V) : Except String Unit :=
  if r.status = some "error" then .error (serverErr r)
  else if r.status = some "ok" then .ok ()
  else .error "Invalid response from server"

/-- `getJobById` acknowledgement handling (lines 567-579).  Unlike every
other call site, the malformed branch appends the JSON-serialised
acknowledgement: `"Invalid response from server: " + JSON.stringify(response)`.
`JSON.stringify` is an external builtin, modelled as the parameter `jstr`. -/
def getJobByIdAck {V : Type} (jstr : SocketResponse V → String)
    (r : SocketResponse V) : Except String (Option V) :=
  if r.status = some "error" then .error (serverErr r)
  else if r.status = some "ok" then .ok r.job
  else .error ("Invalid response from server: " ++ jstr r)

/-- The error message of an `Except`, `""` when it succeeded (used only
to compare rejection messages between call sites). -/
def errMsgOf {A : Type} : Except String A → String
  | .error m => m
  | .ok _ => ""

/-! ## Worker registration (`work`, lines 465-502) and re-registration
(`client_ready` listener, lines 177-198)

`jobHandlers` is a JS `Map`; `Map.prototype.set` replaces the value of
an existing key in place and appends a new key, so iteration order is
first-registration order.  Handler functions and `WorkOptions` are
opaque (type parameters `H` and `O`). -/

structure HandlerInfo (H O : Type) where
  handler : H
  options : Option O
deriving DecidableEq, Repr

structure ClientState (H O : Type) where
  isStarted : Bool
  reconnecting : Bool
  jobHandlers : List (String × HandlerInfo H O)
deriving DecidableEq, Repr

/-- `Map.prototype.set`: replace in place, else append. -/
def mapSet {H O : Type} : List (String × HandlerInfo H O) → String →
    HandlerInfo H O → List (String × HandlerInfo H O)
  | [], n, e => [(n, e)]
  | (k, v) :: rest, n, e =>
      if k = n then (k, e) :: rest else (k, v) :: mapSet rest n e

/-- Second positional argument of `work`: either the handler function or
a `WorkOptions` object. -/
inductive WorkArg2 (H O : Type) where
  | func (h : H)
  | opts (o : O)
deriving DecidableEq, Repr

/-- Messages `work` and the `client_ready` listener emit to the server. -/
inductive RegMsg (O : Type) where
  | registerWorker (jobName : String) (options : Option O)
deriving DecidableEq, Repr

/-- `work(name, optionsOrHandler, handler?)` (lines 471-502): not-started
precondition first; then the overload resolution — a function second
argument is the handler (no options); otherwise a present third argument
is the handler; otherwise `throw new Error("Handler function is required")`.
On success the handler is stored in `jobHandlers` and one
`register_worker` message is emitted. -/
def workCall {H O : Type} (st : ClientState H O) (name : String)
    (arg2 : WorkArg2 H O) (arg3 : Option H) :
    Except String (ClientState H O × List (RegMsg O)) :=
  if !st.isStarted then .error "PlanLlama not started. Call start() first."
  else
    match arg2, arg3 with
    | .func h, _ =>
        .ok ({ st with jobHandlers := mapSet st.jobHandlers name ⟨h, none⟩ },
             [.registerWorker name none])
    | .opts o, some h =>
        .ok ({ st with jobHandlers := mapSet st.jobHandlers name ⟨h, some o⟩ },
             [.registerWorker name (some o)])
    | .opts _, none => .error "Handler function is required"

/-- The `client_ready` listener (lines 177-198): on a reconnect
(`this.reconnecting` already true) it re-emits `register_worker` for
every entry of `jobHandlers`, in map (= first-registration) order; on
the first connection it emits nothing (it installs the event handlers
instead). -/
def clientReadyEmits {H O : Type} (st : ClientState H O) : List (RegMsg O) :=
  if st.reconnecting then
    st.jobHandlers.map (fun e => .registerWorker e.1 e.2.options)
  else []

/-- Folding a sequence of `work` registrations, each in either overload:
`(name, handler, none)` models `work(name, handler)` and
`(name, handler, some options)` models `work(name, options, handler)`. -/
def registerAll {H O : Type} (st : ClientState H O) :
    List (String × H × Option O) → Option (ClientState H O)
  | [] => some st
  | (n, h, none) :: rest =>
      match workCall st n (.func h) none with
      | .ok (st', _) => registerAll st' rest
      | .error _ => none
  | (n, h, some o) :: rest =>
      match workCall st n (.opts o) (some h) with
      | .ok (st', _) => registerAll st' rest
      | .error _ => none

/-! ## Workflow orchestrator (`workflow`, lines 737-883)

A step map is a JS object: an ordered association list with distinct
keys.  A step value is either a plain handler function (`SingleStep`) or
an array of dependency names ending in the handler (`DependantStep`);
the handler itself is opaque, so a step definition reduces to its
dependency list. -/

inductive StepDef where
  | single
  | withDeps (deps : List String)
deriving DecidableEq, Repr

def StepDef.depsOf : StepDef → List String
  | .single => []
  | .withDeps ds => ds

def keysOf (steps : List (String × StepDef)) : List String :=
  steps.map Prod.fst

/-- The dependency list of the step named `n` (`step.slice(0, -1)` for an
array step, nothing for a function step or an absent name). -/
def stepDeps (steps : List (String × StepDef)) (n : String) : List String :=
  match List.lookup n steps with
  | some sd => sd.depsOf
  | none => []

/-- `a` directly depends on `b`. -/
def DepOn (steps : List (String × StepDef)) (a b : String) : Prop :=
  b ∈ stepDeps steps a

/-- The step graph contains a dependency cycle: some step transitively
depends on itself. -/
def HasCycle (steps : List (String × StepDef)) : Prop :=
  ∃ n, Relation.TransGen (DepOn steps) n n

/-- The error thrown at lines 816-818 for a dependency on an undeclared
step name. -/
def mkUndefinedDepMsg (s d : String) : String :=
  "Step \x27" ++ s ++ "\x27 depends on undefined step \x27" ++ d ++ "\x27"

/-- The error thrown at lines 855-857 when Kahn's algorithm fails to
consume every step. -/
def recursiveDepMsg : String :=
  "workflow() cannot execute steps due to a recursive dependency"

/-- Inner loop of the graph-building phase of `cycleCheck`
(lines 813-824): for every dependency of step `n`, in order, fail on an
undeclared name, otherwise append `n` to that dependency's dependents
list.  (The `if (!dependents[dep])` guard of the source can only see
declared keys, all initialised at lines 802-805, so it never fires;
the model's dependents map is total.) -/
def addDependents (declared : List String) (n : String) :
    List String → (String → List String) → Except String (String → List String)
  | [], deps => .ok deps
  | d :: ds, deps =>
      if d ∈ declared then
        addDependents declared n ds
          (fun k => if k = d then deps k ++ [n] else deps k)
      else .error (mkUndefinedDepMsg n d)

/-- Graph-building phase of `cycleCheck` (lines 796-826): walk the step
entries in declaration order; an array step sets its in-degree to the
length of its dependency list (function steps keep the initial `0`) and
registers itself as a dependent of each dependency. -/
def buildGraph (declared : List String) :
    List (String × StepDef) → (String → Int) → (String → List String) →
    Except String ((String → Int) × (String → List String))
  | [], inDeg, deps => .ok (inDeg, deps)
  | (_, .single) :: rest, inDeg, deps => buildGraph declared rest inDeg deps
  | (n, .withDeps ds) :: rest, inDeg, deps =>
      match addDependents declared n ds deps with
      | .error e => .error e
      | .ok deps' =>
          buildGraph declared rest
            (fun k => if k = n then (ds.length : Int) else inDeg k) deps'

/-- Processing the dependents of one dequeued step (lines 843-850):
decrement each dependent's in-degree and enqueue the ones that reach
exactly `0`.  (The `inDegree[dependent] !== undefined` guard never
fails in the source: every dependent is a declared key.) -/
def processDeps : List String → (String → Int) → List String →
    List String × (String → Int)
  | [], inDeg, acc => (acc, inDeg)
  | d :: ds, inDeg, acc =>
      let v := inDeg d - 1
      processDeps ds (fun k => if k = d then v else inDeg k)
        (if v = 0 then acc ++ [d] else acc)

/-- Kahn consumption loop (lines 838-851), with explicit fuel in place
of the source's unbounded `while`; `kahnLoop_no_fuel_exhaustion` below
shows the fuel used by `cycleCheck` is never exhausted, so the model
agrees with the source.  Returns the list of processed steps in dequeue
order (the source only keeps its length, `processedCount`). -/
def kahnLoop (depsF : String → List String) :
    Nat → List String → (String → Int) → List String → List String
  | 0, _, _, p => p
  | _ + 1, [], _, p => p
  | fuel + 1, c :: rest, inDeg, p =>
      let pr := processDeps (depsF c) inDeg []
      kahnLoop depsF fuel (rest ++ pr.1) pr.2 (p ++ [c])

/-- `cycleCheck` (lines 796-859): build the graph (failing on undeclared
dependencies), seed the queue with the zero-in-degree steps in
declaration order (lines 829-834), run Kahn's algorithm, and fail with
`recursiveDepMsg` unless every step was consumed. -/
def cycleCheck (steps : List (String × StepDef)) : Except String Unit :=
  match buildGraph (keysOf steps) steps (fun _ => 0) (fun _ => []) with
  | .error e => .error e
  | .ok (inDeg, depsF) =>
      let q0 := (keysOf steps).filter (fun k => inDeg k = 0)
      let p := kahnLoop depsF (steps.length + 1) q0 inDeg []
      if p.length = steps.length then .ok () else .error recursiveDepMsg

/-- The run's accumulated step-result state.  `fetchCurrentStepResults`
(line 694) returns `new Map(Object.entries(...))`, so the fetched
results live in **`Map` entries**, while `runStep` (line 879) writes
`stepResults[stepName] = result`, i.e. **plain own properties** of the
same object.  The two stores are disjoint in JS and are modelled as two
association lists.  `stepResults.has(n)` (line 777) consults the `Map`
entries; `dep in stepResults` (line 786) consults the own properties
(`in` would additionally see `Map.prototype` method names such as
`"get"` or `"size"`; the model assumes step names do not collide with
those, which holds for every input considered below). -/
structure ResultsTable (V : Type) where
  fetched : List (String × V)
  props : List (String × V)
deriving DecidableEq, Repr

def stepAssign {V : Type} (t : ResultsTable V) (n : String) (v : V) :
    ResultsTable V :=
  { t with props := t.props ++ [(n, v)] }

/-- `getNextSteps(_steps)` (lines 772-794): walk the given entries in
order; skip a step already present in the fetched `Map`
(`stepResults.has`); a function step is always eligible; an array step
is eligible when every dependency is an own property of `stepResults`
(`dep in stepResults`), and pending otherwise. -/
def getNextSteps {V : Type} (t : ResultsTable V) :
    List (String × StepDef) → List String × List (String × StepDef)
  | [] => ([], [])
  | (n, sd) :: rest =>
      let pr := getNextSteps t rest
      if n ∈ t.fetched.map Prod.fst then pr
      else
        match sd with
        | .single => (n :: pr.1, pr.2)
        | .withDeps ds =>
            if ∀ d ∈ ds, d ∈ t.props.map Prod.fst then (n :: pr.1, pr.2)
            else (pr.1, (n, .withDeps ds) :: pr.2)

/-- `runSteps`/`runStep` (lines 861-882), with explicit fuel in place of
the source's recursion (`runSteps_total` below shows the fuel used by
`workflowDriver` is never exhausted).  Returns the dispatch trace — the
job names passed to `self.request`, i.e. `"<workflow>/<step>"` — and
the final result table.  Each frontier step's result is written into
the own properties (`stepResults[stepName] = result`); handler results
are opaque and modelled by `hres` as a function of the step name; the
fire-and-forget `storeStepResult` call has no effect on the run. -/
def runSteps {V : Type} (wfName : String) (hres : String → V) :
    Nat → ResultsTable V → List String → List (String × StepDef) →
    Option (List String × ResultsTable V)
  | 0, _, _, _ => none
  | _ + 1, t, [], _ => some ([], t)
  | fuel + 1, t, n :: ns, ps =>
      let t' := (n :: ns).foldl (fun acc s => stepAssign acc s (hres s)) t
      let pr := getNextSteps t' ps
      match runSteps wfName hres fuel t' pr.1 pr.2 with
      | some (tr, tf) => some ((n :: ns).map (fun s => wfName ++ "/" ++ s) ++ tr, tf)
      | none => none

/-- The workflow run driver (the handler registered at line 759 for the
workflow's own name): after the step-result fetch (whose result is the
`fetched` parameter), run `cycleCheck`, compute the first frontier from
the full step map, and run the frontier loop.  The `none` branch of
`runSteps` is unreachable for the fuel chosen here (`runSteps_total`). -/
def workflowDriver {V : Type} (wfName : String) (steps : List (String × StepDef))
    (fetched : List (String × V)) (hres : String → V) :
    Except String (List String × ResultsTable V) :=
  match cycleCheck steps with
  | .error e => .error e
  | .ok _ =>
      let t : ResultsTable V := ⟨fetched, []⟩
      let pr := getNextSteps t steps
      match runSteps wfName hres (steps.length + 2) t pr.1 pr.2 with
      | some (tr, tf) => .ok (tr, tf)
      | none => .error "fuel exhausted (unreachable)"

/-! ## Auxiliary notions for the theorems -/

/-- `leadsWith needle hay`: `needle` is an initial segment of `hay`. -/
def leadsWith : List Char → List Char → Bool
  | [], _ => true
  | _ :: _, [] => false
  | a :: as, b :: bs => a == b && leadsWith as bs

/-- `mentionsChars hay needle`: `needle` occurs as a contiguous segment
of `hay`. -/
def mentionsChars : List Char → List Char → Bool
  | [], needle => needle.isEmpty
  | c :: t, needle => leadsWith needle (c :: t) || mentionsChars t needle

/-- `mentions m sub`: the string `sub` occurs somewhere in `m`. -/
def mentions (m sub : String) : Bool :=
  mentionsChars m.data sub.data

/-- The job name a step dispatch uses: `"<workflow>/<step>"`. -/
def dispatchName (wfName s : String) : String :=
  wfName ++ "/" ++ s

/-- A list is topologically sorted for the dependency map `D`: every
element's dependencies occur strictly before it. -/
def TopoSorted (D : String → List String) (p : List String) : Prop :=
  ∀ i : Fin p.length, ∀ d ∈ D (p.get i), d ∈ p.take i.val

/-- Invariant of the Kahn consumption loop, tying the queue `q`, the
processed list `p` and the in-degree map to the step graph. -/
def KahnInv (steps : List (String × StepDef)) (q p : List String)
    (inDeg : String → Int) : Prop :=
  p.Nodup ∧ q.Nodup ∧ (∀ x ∈ p, x ∉ q) ∧
  (∀ x ∈ p, x ∈ keysOf steps) ∧ (∀ x ∈ q, x ∈ keysOf steps) ∧
  (∀ n, inDeg n = (((stepDeps steps n).filter (fun d => d ∉ p)).length : Int)) ∧
  (∀ n ∈ q, ∀ d ∈ stepDeps steps n, d ∈ p) ∧
  TopoSorted (stepDeps steps) p ∧
  (∀ n ∈ keysOf steps, n ∉ p → n ∉ q → ∃ d ∈ stepDeps steps n, d ∉ p)

/-- What survives of the invariant when the queue has drained. -/
def KahnEnd (steps : List (String × StepDef)) (p : List String) : Prop :=
  p.Nodup ∧ (∀ x ∈ p, x ∈ keysOf steps) ∧ TopoSorted (stepDeps steps) p ∧
  (∀ n ∈ keysOf steps, n ∉ p → ∃ d ∈ stepDeps steps n, d ∉ p)

/-! # Theorems -/

/-! ## C10 — deadline defaulting -/

/-- C10: a pushed work item whose job carries a configured deadline of
`0` seconds, or no deadline at all, is given the default `900`-second
deadline for the timeout timer (`job.expireInSeconds ||= 900`,
`setTimeout(..., job.expireInSeconds * 1000)`); a positive configured
deadline keeps its own value. -/
theorem deadline_defaulting (j : Job) :
    ((j.expireInSeconds = none ∨ j.expireInSeconds = some 0) →
      timerMillis j = 900 * 1000) ∧
    (∀ n : Int, 0 < n → j.expireInSeconds = some n → timerMillis j = n * 1000) := by
  constructor
  · rintro (h | h) <;> simp [timerMillis, effectiveExpire, h]
  · intro n hn h
    simp only [timerMillis, effectiveExpire, h]
    rw [if_neg (by omega)]

/-- Witness for `deadline_defaulting` at deadlines `0`, absent and `5`. -/
theorem deadline_defaulting_witness :
    timerMillis ⟨"id1", "job1", some 0⟩ = 900 * 1000 ∧
    timerMillis ⟨"id1", "job1", none⟩ = 900 * 1000 ∧
    timerMillis ⟨"id1", "job1", some 5⟩ = 5 * 1000 :=
  ⟨(deadline_defaulting ⟨"id1", "job1", some 0⟩).1 (Or.inr rfl),
   (deadline_defaulting ⟨"id1", "job1", none⟩).1 (Or.inl rfl),
   (deadline_defaulting ⟨"id1", "job1", some 5⟩).2 5 (by norm_num) rfl⟩

/-! ## C6 — unregistered job name -/

/-- C6: a pushed work item whose name has no registered handler makes
the client immediately report a failure whose message is
`"No handler registered for job: <name>"`, and the started notification
(`job_started`) is never emitted for that work item. -/
theorem no_handler_immediate_failure {V : Type} (registry : List String)
    (j : Job) (trace : List (HandlerEvent V)) (h : j.name ∉ registry) :
    handleWorkRequest registry j trace =
      [.jobFailedMsg j.id ("No handler registered for job: " ++ j.name)] ∧
    ∀ e ∈ handleWorkRequest registry j trace, e.isJobStarted = false := by
  have hw : handleWorkRequest registry j trace =
      [.jobFailedMsg j.id ("No handler registered for job: " ++ j.name)] := by
    simp [handleWorkRequest, h]
  refine ⟨hw, ?_⟩
  intro e he
  rw [hw] at he
  simp only [List.mem_singleton] at he
  subst he
  rfl

/-- Witness for `no_handler_immediate_failure`: job `"absent"` pushed
against a registry containing only `"known"`. -/
theorem no_handler_immediate_failure_witness :
    handleWorkRequest (V := Nat) ["known"] ⟨"id9", "absent", none⟩ [] =
      [.jobFailedMsg "id9" ("No handler registered for job: " ++ "absent")] :=
  (no_handler_immediate_failure ["known"] ⟨"id9", "absent", none⟩ []
    (by decide)).1

/-! ## C7 — correlation of completed/failed notifications -/

/-- After a settlement both listeners are deregistered and further
notifications change nothing. -/
theorem corrStep_settled_fixed {V : Type} (out : Option (Except String V))
    (n : Notif V) : corrStep ⟨false, false, out⟩ n = ⟨false, false, out⟩ := by
  cases n <;> simp [corrStep]

theorem corrRun_settled {V : Type} (out : Option (Except String V))
    (rest : List (Notif V)) :
    rest.foldl corrStep ⟨false, false, out⟩ = ⟨false, false, out⟩ := by
  induction rest with
  | nil => rfl
  | cons n rest ih => rw [List.foldl_cons, corrStep_settled_fixed, ih]

/-- C7: for a `request` whose initial acknowledgement is `ok` and
carries a job id, the correlator settles on the first per-id
notification: a `completed` notification first resolves with the
carried result and leaves the `failed` listener deregistered (so no
later notification has any effect); a `failed` notification first
rejects with an error built from the carried message, defaulting to
`"Job failed"` when absent, and leaves the `completed` listener
deregistered (so a later `completed` never fires). -/
theorem request_correlation {V : Type} (r : SocketResponse V)
    (hs : r.status = some "ok") (hj : optStrTruthy r.jobId = true) :
    (∀ (v : V) (rest : List (Notif V)),
      requestModel r (.completed v :: rest) =
        .ok ⟨false, false, some (.ok v)⟩) ∧
    (∀ (e : Option String) (rest : List (Notif V)),
      requestModel r (.failed e :: rest) =
        .ok ⟨false, false, some (.error (e.getD "Job failed"))⟩) := by
  have hshape : requestShapeAck r = .ok (r.jobId.getD "") := by
    simp [requestShapeAck, hs, hj]
  constructor
  · intro v rest
    simp only [requestModel, hshape, corrRun, List.foldl_cons]
    rw [show corrStep ⟨true, true, none⟩ (Notif.completed v) =
        (⟨false, false, some (.ok v)⟩ : CorrState V) from rfl]
    rw [corrRun_settled]
  · intro e rest
    simp only [requestModel, hshape, corrRun, List.foldl_cons]
    rw [show corrStep ⟨true, true, none⟩ (Notif.failed e) =
        (⟨false, false, some (.error (e.getD "Job failed"))⟩ : CorrState V) from rfl]
    rw [corrRun_settled]

/-- Witness for `request_correlation`: an `ok` acknowledgement with job
id `"j1"`, a `failed` notification with no message arriving first (and
a `completed` notification after it, which is ignored). -/
theorem request_correlation_witness :
    requestModel (V := Nat)
      ⟨some "ok", none, some "j1", none, none, none, none, none, none, none⟩
      [.failed none, .completed 3] =
      .ok ⟨false, false, some (.error "Job failed")⟩ :=
  (request_correlation
    ⟨some "ok", none, some "j1", none, none, none, none, none, none, none⟩
    rfl rfl).2 none [.completed 3]

/-! ## C4 — resumption (code bug) -/

/-- C4 (failing input for the code): resuming the two-step workflow
`{a: fn, b: ["a", fn]}` with a previously stored result table `{a: 1}`.
The claim (and the spec's resume model) requires the driver to dispatch
exactly the remaining step `b` — its only dependency `a` being satisfied
by the fetched result — and to complete the run.  The code instead
dispatches nothing and returns a table without `b`: `fetchCurrentStepResults`
wraps the stored results in a `Map`, so the skip test `stepResults.has("a")`
sees them, but the dependency test `"a" in stepResults` and the writes
`stepResults[name] = result` use plain object properties, which the
fetched entries never populate.  The theorem evaluates the embedded
driver at that input: the dispatch trace is empty and the result table's
own properties do not contain `b`. -/
theorem resume_drops_steps_depending_on_fetched_results :
    workflowDriver "wf" [("a", .single), ("b", .withDeps ["a"])]
        [("a", (1 : Nat))] (fun _ => 7) =
      .ok ([], ⟨[("a", 1)], []⟩) ∧
    ([] : List String) ≠ [dispatchName "wf" "b"] := by
  exact ⟨rfl, by decide⟩

/-! ## C9 — the "invalid response" rejection message -/

/-- C9 (counterexample): the claim says every public operation rejects a
malformed acknowledgement with the same verbatim
`"invalid response from server"` string, identical across call sites.
At the acknowledgement `{status: "weird"}`, `publish` rejects with
`"Invalid response from server"` (capital `I`, already differing from
the claim's quoted string), while `getJobById` appends the serialised
acknowledgement (`"Invalid response from server: " + JSON.stringify(response)`),
so the two call sites' messages differ even under a serialiser returning
the empty string. -/
theorem invalid_response_message_counterexample :
    errMsgOf (publishAck (V := Nat)
        ⟨some "weird", none, none, none, none, none, none, none, none, none⟩) ≠
      "invalid response from server" ∧
    errMsgOf (getJobByIdAck (V := Nat) (fun _ => "")
        ⟨some "weird", none, none, none, none, none, none, none, none, none⟩) ≠
      errMsgOf (publishAck (V := Nat)
        ⟨some "weird", none, none, none, none, none, none, none, none, none⟩) := by
  constructor <;> decide

/-- C9 (amended): an acknowledgement whose `status` is neither `"ok"`
nor `"error"` is rejected with the message
`"Invalid response from server"` at every modelled call site except
`getJobById`, which rejects with that string followed by `": "` and the
`JSON.stringify` serialisation of the acknowledgement. -/
theorem invalid_response_messages {V : Type} (jstr : SocketResponse V → String)
    (r : SocketResponse V) (he : r.status ≠ some "error")
    (ho : r.status ≠ some "ok") :
    publishAck r = .error "Invalid response from server" ∧
    requestShapeAck r = .error "Invalid response from server" ∧
    scheduleAck r = .error "Invalid response from server" ∧
    publishBatchAck r = .error "Invalid response from server" ∧
    getQueueSizeAck r = .error "Invalid response from server" ∧
    getTemporaryTokenAck r = .error "Invalid response from server" ∧
    fetchStepResultsAck r = .error "Invalid response from server" ∧
    storeStepResultAck r = .error "Invalid response from server" ∧
    getJobByIdAck jstr r = .error ("Invalid response from server: " ++ jstr r) := by
  refine ⟨?_, ?_, ?_, ?_, ?_, ?_, ?_, ?_, ?_⟩ <;>
    simp [publishAck, requestShapeAck, scheduleAck, publishBatchAck,
      getQueueSizeAck, getTemporaryTokenAck, fetchStepResultsAck,
      storeStepResultAck, getJobByIdAck, he, ho]

/-- Witness for `invalid_response_messages` at `{status: "weird"}` with
a serialiser returning `"{}"`. -/
theorem invalid_response_messages_witness :
    publishAck (V := Nat)
        ⟨some "weird", none, none, none, none, none, none, none, none, none⟩ =
      .error "Invalid response from server" ∧
    getJobByIdAck (V := Nat) (fun _ => "\x7b\x7d")
        ⟨some "weird", none, none, none, none, none, none, none, none, none⟩ =
      .error ("Invalid response from server: " ++ "\x7b\x7d") :=
  ⟨(invalid_response_messages (V := Nat) (fun _ => "\x7b\x7d")
      ⟨some "weird", none, none, none, none, none, none, none, none, none⟩
      (by decide) (by decide)).1,
   (invalid_response_messages (V := Nat) (fun _ => "\x7b\x7d")
      ⟨some "weird", none, none, none, none, none, none, none, none, none⟩
      (by decide) (by decide)).2.2.2.2.2.2.2.2⟩

/-! ## C8 — worker registration and re-registration -/

theorem lookup_mapSet_self {H O : Type} (l : List (String × HandlerInfo H O))
    (n : String) (e : HandlerInfo H O) :
    List.lookup n (mapSet l n e) = some e := by
  induction l with
  | nil => simp [mapSet, List.lookup]
  | cons kv rest ih =>
      obtain ⟨k, v⟩ := kv
      by_cases hk : k = n
      · subst hk
        simp [mapSet, List.lookup]
      · have hbeq : (n == k) = false := by
          simp [beq_eq_false_iff_ne, Ne.symm hk]
        simp [mapSet, if_neg hk, List.lookup, hbeq, ih]

theorem mapSet_append_of_not_mem {H O : Type}
    (l : List (String × HandlerInfo H O)) (n : String) (e : HandlerInfo H O)
    (h : n ∉ l.map Prod.fst) : mapSet l n e = l ++ [(n, e)] := by
  induction l with
  | nil => rfl
  | cons kv rest ih =>
      obtain ⟨k, v⟩ := kv
      simp only [List.map_cons, List.mem_cons] at h
      push_neg at h
      simp only [mapSet, if_neg (Ne.symm h.1), List.cons_append]
      rw [ih h.2]

theorem registerAll_spec {H O : Type} (regs : List (String × H × Option O)) :
    ∀ (st : ClientState H O), st.isStarted = true →
    (∀ p ∈ regs, p.1 ∉ st.jobHandlers.map Prod.fst) →
    (regs.map Prod.fst).Nodup →
    registerAll st regs =
      some { st with jobHandlers :=
        st.jobHandlers ++ regs.map (fun p => (p.1, ⟨p.2.1, p.2.2⟩)) } := by
  induction regs with
  | nil => intro st _ _ _; simp [registerAll]
  | cons nh rest ih =>
      intro st hstart hfresh hnd
      obtain ⟨n, h, oo⟩ := nh
      simp only [List.map_cons, List.nodup_cons] at hnd
      have hn : n ∉ st.jobHandlers.map Prod.fst := hfresh (n, h, oo) (by simp)
      have hfresh' : ∀ p ∈ rest, p.1 ∉
          (({ st with jobHandlers := st.jobHandlers ++ [(n, ⟨h, oo⟩)] } :
            ClientState H O)).jobHandlers.map Prod.fst := by
        intro p hp
        simp only [List.map_append, List.mem_append]
        push_neg
        refine ⟨fun hmem => hfresh p (List.mem_cons_of_mem _ hp) hmem, ?_⟩
        simp only [List.map_cons, List.map_nil, List.mem_singleton]
        intro hpn
        exact hnd.1 (hpn ▸ List.mem_map_of_mem Prod.fst hp)
      cases oo with
      | none =>
          have hcall : workCall st n (.func h) none =
              .ok ({ st with jobHandlers :=
                  st.jobHandlers ++ [(n, ⟨h, none⟩)] },
                [.registerWorker n none]) := by
            simp [workCall, hstart, mapSet_append_of_not_mem _ _ _ hn]
          simp only [registerAll, hcall]
          rw [ih { st with jobHandlers := st.jobHandlers ++ [(n, ⟨h, none⟩)] }
            hstart hfresh' hnd.2]
          simp
      | some o =>
          have hcall : workCall st n (.opts o) (some h) =
              .ok ({ st with jobHandlers :=
                  st.jobHandlers ++ [(n, ⟨h, some o⟩)] },
                [.registerWorker n (some o)]) := by
            simp [workCall, hstart, mapSet_append_of_not_mem _ _ _ hn]
          simp only [registerAll, hcall]
          rw [ih { st with jobHandlers :=
              st.jobHandlers ++ [(n, ⟨h, some o⟩)] } hstart hfresh' hnd.2]
          simp

/-- C8 (counterexample): the claim says a call with no handler function
fails fast with `"handler function is required"`; the code's message is
`"Handler function is required"` (capital `H`), a different string. -/
theorem work_missing_handler_message_counterexample :
    workCall (H := Unit) (O := Unit) ⟨true, false, []⟩ "job" (.opts ()) none =
      .error "Handler function is required" ∧
    "Handler function is required" ≠ "handler function is required" :=
  ⟨rfl, by decide⟩

/-- C8 (amended, changing the original only where the counterexample
forces it): `register(name, handler, options?)` — in both overloads,
handler as second argument or options-then-handler — stores the handler
in the handler registry and asserts the registration to the server
immediately if connected (`work` runs only on a started client); after
each successful reconnect, every currently-registered name is
re-asserted in registration order; a call with no handler function
fails fast with `"Handler function is required"` (capital `H`, rather
than the claim's quoted `"handler function is required"`). -/
theorem work_registration_behaviour {H O : Type} :
    (∀ (st : ClientState H O) (name : String) (o : O),
      st.isStarted = true →
      workCall st name (.opts o) none = .error "Handler function is required") ∧
    (∀ (st : ClientState H O) (name : String) (h : H),
      st.isStarted = true →
      ∃ st', workCall st name (.func h) none =
          .ok (st', [.registerWorker name none]) ∧
        List.lookup name st'.jobHandlers = some ⟨h, none⟩) ∧
    (∀ (st : ClientState H O) (name : String) (o : O) (h : H),
      st.isStarted = true →
      ∃ st', workCall st name (.opts o) (some h) =
          .ok (st', [.registerWorker name (some o)]) ∧
        List.lookup name st'.jobHandlers = some ⟨h, some o⟩) ∧
    (∀ (regs : List (String × H × Option O)) (st : ClientState H O),
      st.isStarted = true → st.jobHandlers = [] →
      (regs.map Prod.fst).Nodup →
      ∃ st', registerAll st regs = some st' ∧
        clientReadyEmits { st' with reconnecting := true } =
          regs.map (fun p => .registerWorker p.1 p.2.2)) := by
  refine ⟨?_, ?_, ?_, ?_⟩
  · intro st name o hstart
    simp [workCall, hstart]
  · intro st name h hstart
    refine ⟨{ st with jobHandlers := mapSet st.jobHandlers name ⟨h, none⟩ },
      ?_, ?_⟩
    · simp [workCall, hstart]
    · exact lookup_mapSet_self _ _ _
  · intro st name o h hstart
    refine ⟨{ st with jobHandlers := mapSet st.jobHandlers name ⟨h, some o⟩ },
      ?_, ?_⟩
    · simp [workCall, hstart]
    · exact lookup_mapSet_self _ _ _
  · intro regs st hstart hempty hnd
    refine ⟨_, registerAll_spec regs st hstart ?_ hnd, ?_⟩
    · intro p _
      simp [hempty]
    · simp [clientReadyEmits, hempty]

/-- Witness for `work_registration_behaviour` on a started client:
fail-fast with no handler, the options-plus-handler overload storing
`("a", some options)`, and reconnect re-assertion after registering
`"a"` (plain) then `"b"` (with options). -/
theorem work_registration_behaviour_witness :
    workCall (H := Unit) (O := Unit) ⟨true, false, []⟩ "a" (.opts ()) none =
      .error "Handler function is required" ∧
    (∃ st', workCall (H := Unit) (O := Unit) ⟨true, false, []⟩ "a"
        (.opts ()) (some ()) = .ok (st', [.registerWorker "a" (some ())]) ∧
      List.lookup "a" st'.jobHandlers = some ⟨(), some ()⟩) ∧
    (∃ st', registerAll (H := Unit) (O := Unit) ⟨true, false, []⟩
        [("a", (), none), ("b", (), some ())] = some st' ∧
      clientReadyEmits { st' with reconnecting := true } =
        ([("a", (), none), ("b", (), some ())] :
          List (String × Unit × Option Unit)).map
          (fun p => .registerWorker p.1 p.2.2)) :=
  ⟨work_registration_behaviour.1 ⟨true, false, []⟩ "a" () rfl,
   work_registration_behaviour.2.2.1 ⟨true, false, []⟩ "a" () () rfl,
   work_registration_behaviour.2.2.2 [("a", (), none), ("b", (), some ())]
     ⟨true, false, []⟩ rfl rfl (by decide)⟩

/-! ## C5 — exactly one outcome acknowledgement -/

theorem timeout_not_mem_of_validAux {V : Type} (rest : List (HandlerEvent V)) :
    ∀ s, validAux s true rest = true → HandlerEvent.timeoutFire ∉ rest := by
  induction rest with
  | nil => intro s _ h; exact absurd h (List.not_mem_nil _)
  | cons e r ih =>
      intro s hv
      cases e with
      | resolve v =>
          simp only [validAux, Bool.and_eq_true] at hv
          intro hmem
          rcases List.mem_cons.mp hmem with h | h
          · exact HandlerEvent.noConfusion h
          · exact ih true hv.2 h
      | reject m =>
          simp only [validAux, Bool.and_eq_true] at hv
          intro hmem
          rcases List.mem_cons.mp hmem with h | h
          · exact HandlerEvent.noConfusion h
          · exact ih true hv.2 h
      | timeoutFire => simp [validAux] at hv

theorem processTrace_cancelled_of_no_timeout {V : Type} (j : Job) :
    ∀ rest : List (HandlerEvent V), HandlerEvent.timeoutFire ∉ rest →
    processTrace j true rest = [] := by
  intro rest
  induction rest with
  | nil => intro _; rfl
  | cons e r ih =>
      intro hnm
      have hr : HandlerEvent.timeoutFire (V := V) ∉ r :=
        fun h => hnm (List.mem_cons_of_mem _ h)
      cases e with
      | resolve v => simpa [processTrace, handlerStep] using ih hr
      | reject m => simpa [processTrace, handlerStep] using ih hr
      | timeoutFire => exact absurd (List.mem_cons_self _ _) hnm

theorem trace_ends_after_settle {V : Type} (b : Bool)
    (rest : List (HandlerEvent V)) (h : validAux true b rest = true) :
    rest = [] := by
  cases rest with
  | nil => rfl
  | cons e r => cases e <;> simp [validAux] at h

/-- C5: for a pushed work item with a registered handler, any valid
interleaving of handler settlement and deadline-timer firing delivers
exactly one outcome report through the delivery acknowledgement; and
once the deadline-failure report has been sent, a later settlement of
the handler produces neither a `job_completed` emission nor any second
acknowledgement. -/
theorem worker_exactly_one_ack {V : Type} (registry : List String) (j : Job)
    (trace : List (HandlerEvent V)) (hreg : j.name ∈ registry)
    (hval : validAux false false trace = true) (hne : trace ≠ []) :
    ((handleWorkRequest registry j trace).filter (fun e => e.isAck)).length = 1 ∧
    (HandlerEvent.timeoutFire ∈ trace →
      (handleWorkRequest registry j trace).filter (fun e => e.isAck) =
        [.ack (.error (timeoutAckMsg j))] ∧
      ∀ e ∈ handleWorkRequest registry j trace, e.isJobCompleted = false) := by
  have hw : handleWorkRequest registry j trace =
      [.jobStarted j.name j.id, .lifecycle "active"] ++ processTrace j false trace := by
    simp [handleWorkRequest, hreg]
  rw [hw]
  cases trace with
  | nil => exact absurd rfl hne
  | cons e rest =>
      cases e with
      | resolve v =>
          simp only [validAux, Bool.not_false, Bool.true_and] at hval
          have hrest := trace_ends_after_settle false rest hval
          subst hrest
          refine ⟨by rfl, ?_⟩
          intro hmem
          simp at hmem
      | reject m =>
          simp only [validAux, Bool.not_false, Bool.true_and] at hval
          have hrest := trace_ends_after_settle false rest hval
          subst hrest
          refine ⟨by rfl, ?_⟩
          intro hmem
          simp at hmem
      | timeoutFire =>
          simp only [validAux, Bool.not_false, Bool.true_and] at hval
          have hnt := timeout_not_mem_of_validAux rest false hval
          have hpt := processTrace_cancelled_of_no_timeout j rest hnt
          have hout : processTrace j false (HandlerEvent.timeoutFire :: rest) =
              [.ack (.error (timeoutAckMsg j)), .lifecycle "failed"] := by
            simp [processTrace, handlerStep, hpt]
          rw [hout]
          refine ⟨by rfl, fun _ => ⟨by rfl, ?_⟩⟩
          intro ev hev
          fin_cases hev <;> rfl

/-- Witness for `worker_exactly_one_ack`: deadline fires first, handler
resolves afterwards; the single acknowledgement is the deadline error
and no `job_completed` is emitted. -/
theorem worker_exactly_one_ack_witness :
    ((handleWorkRequest ["n"] ⟨"i", "n", some 1⟩
        [HandlerEvent.timeoutFire, .resolve (5 : Nat)]).filter
      (fun e => e.isAck)).length = 1 ∧
    (handleWorkRequest ["n"] ⟨"i", "n", some 1⟩
        [HandlerEvent.timeoutFire, .resolve (5 : Nat)]).filter
      (fun e => e.isAck) = [.ack (.error (timeoutAckMsg ⟨"i", "n", some 1⟩))] := by
  have h := worker_exactly_one_ack ["n"] ⟨"i", "n", some 1⟩
    [HandlerEvent.timeoutFire, .resolve (5 : Nat)]
    (by decide) (by decide) (by decide)
  exact ⟨h.1, (h.2 (by decide)).1⟩

/-! ## Association-list helpers for the step map -/

theorem mem_of_lookup_eq_some {steps : List (String × StepDef)}
    {n : String} {sd : StepDef} (h : List.lookup n steps = some sd) :
    (n, sd) ∈ steps := by
  induction steps with
  | nil => simp [List.lookup] at h
  | cons kv rest ih =>
      obtain ⟨k, v⟩ := kv
      by_cases hk : n = k
      · subst hk
        simp only [List.lookup, beq_self_eq_true] at h
        injection h with h
        subst h
        exact List.mem_cons_self _ _
      · have hbeq : (n == k) = false := by
          simp [beq_eq_false_iff_ne, hk]
        simp only [List.lookup, hbeq] at h
        exact List.mem_cons_of_mem _ (ih h)

theorem mem_keys_of_stepDeps_ne_nil {steps : List (String × StepDef)}
    {n : String} (h : stepDeps steps n ≠ []) : n ∈ keysOf steps := by
  unfold stepDeps at h
  cases hl : List.lookup n steps with
  | none => rw [hl] at h; exact absurd rfl h
  | some sd =>
      exact List.mem_map_of_mem Prod.fst (mem_of_lookup_eq_some hl)

/-! ## C3 — undefined dependency -/

theorem addDependents_ok (declared : List String) (n : String) :
    ∀ (ds : List String) (deps : String → List String),
    (∀ d ∈ ds, d ∈ declared) →
    ∃ f, addDependents declared n ds deps = .ok f := by
  intro ds
  induction ds with
  | nil => intro deps _; exact ⟨deps, rfl⟩
  | cons d rest ih =>
      intro deps hall
      have hd : d ∈ declared := hall d (List.mem_cons_self _ _)
      simp only [addDependents, if_pos hd]
      exact ih _ (fun x hx => hall x (List.mem_cons_of_mem _ hx))

theorem workflowDriver_error_of_cycleCheck_error {V : Type}
    (wfName : String) {steps : List (String × StepDef)}
    (fetched : List (String × V)) (hres : String → V) {e : String}
    (h : cycleCheck steps = .error e) :
    workflowDriver wfName steps fetched hres = .error e := by
  simp only [workflowDriver, h]

theorem lookup_eq_none_of_not_mem_keys {l : List (String × StepDef)} {n : String}
    (h : n ∉ keysOf l) : List.lookup n l = none := by
  induction l with
  | nil => rfl
  | cons kv rest ih =>
      obtain ⟨k, v⟩ := kv
      simp only [keysOf, List.map_cons, List.mem_cons] at h
      push_neg at h
      have hbeq : (n == k) = false := by simp [beq_eq_false_iff_ne, h.1]
      simp only [List.lookup, hbeq]
      exact ih h.2

theorem stepDeps_cons (m : String) (sd : StepDef)
    (rest : List (String × StepDef)) (nn : String) :
    stepDeps ((m, sd) :: rest) nn =
      if nn = m then sd.depsOf else stepDeps rest nn := by
  unfold stepDeps
  by_cases h : nn = m
  · subst h
    simp [List.lookup]
  · have hbeq : (nn == m) = false := by simp [beq_eq_false_iff_ne, h]
    simp [List.lookup, hbeq, h]

theorem addDependents_count (declared : List String) (n : String) :
    ∀ (ds : List String) (deps f : String → List String),
    addDependents declared n ds deps = .ok f →
    ∀ dd nn, (f dd).count nn =
      (deps dd).count nn + (if nn = n then ds.count dd else 0) := by
  intro ds
  induction ds with
  | nil =>
      intro deps f h dd nn
      injection h with h
      subst h
      simp
  | cons d rest ih =>
      intro deps f h dd nn
      by_cases hd : d ∈ declared
      · simp only [addDependents, if_pos hd] at h
        rw [ih _ f h dd nn]
        by_cases hdd : dd = d
        · subst hdd
          simp only [if_pos rfl, List.count_append, List.count_cons,
            beq_self_eq_true, if_pos rfl]
          by_cases hnn : nn = n
          · subst hnn
            simp [List.count_cons]
            omega
          · simp [if_neg hnn, List.count_cons, Ne.symm hnn]
        · simp only [if_neg hdd]
          have hcc : (d :: rest).count dd = rest.count dd := by
            simp [List.count_cons, beq_eq_false_iff_ne, Ne.symm hdd]
          rw [hcc]
      · simp [addDependents, if_neg hd] at h

theorem buildGraph_ok_spec (declared : List String) :
    ∀ (sub : List (String × StepDef)) (inDeg : String → Int)
      (deps : String → List String),
    (∀ p ∈ sub, ∀ d ∈ p.2.depsOf, d ∈ declared) →
    (keysOf sub).Nodup →
    ∃ inDeg1 deps1,
      buildGraph declared sub inDeg deps = .ok (inDeg1, deps1) ∧
      (∀ n, inDeg1 n = (match List.lookup n sub with
        | some (StepDef.withDeps ds) => (ds.length : Int)
        | _ => inDeg n)) ∧
      (∀ dd nn, (deps1 dd).count nn =
        (deps dd).count nn + (stepDeps sub nn).count dd) := by
  intro sub
  induction sub with
  | nil =>
      intro inDeg deps _ _
      refine ⟨inDeg, deps, rfl, ?_, ?_⟩
      · intro n
        simp [List.lookup]
      · intro dd nn
        simp [stepDeps, List.lookup]
  | cons entry rest ih =>
      intro inDeg deps hall hnd
      obtain ⟨m, sd⟩ := entry
      simp only [keysOf, List.map_cons, List.nodup_cons] at hnd
      have hmrest : List.lookup m rest = none :=
        lookup_eq_none_of_not_mem_keys hnd.1
      cases sd with
      | single =>
          obtain ⟨inDeg1, deps1, heq, hlaw1, hlaw2⟩ := ih inDeg deps
            (fun p hp => hall p (List.mem_cons_of_mem _ hp)) hnd.2
          refine ⟨inDeg1, deps1, by simpa only [buildGraph] using heq, ?_, ?_⟩
          · intro n
            by_cases hn : n = m
            · subst hn
              have hlem : (n == n) = true := beq_self_eq_true n
              simp only [List.lookup, hlem]
              rw [hlaw1 n, hmrest]
            · have hbeq : (n == m) = false := by
                simp [beq_eq_false_iff_ne, hn]
              simp only [List.lookup, hbeq]
              exact hlaw1 n
          · intro dd nn
            rw [hlaw2 dd nn, stepDeps_cons]
            by_cases hnn : nn = m
            · subst hnn
              have : stepDeps rest nn = [] := by
                unfold stepDeps
                rw [hmrest]
              rw [if_pos rfl, this]
              simp [StepDef.depsOf]
            · rw [if_neg hnn]
      | withDeps ds =>
          have hds : ∀ d ∈ ds, d ∈ declared :=
            fun d hd => hall (m, .withDeps ds) (List.mem_cons_self _ _) d hd
          obtain ⟨f, hf⟩ := addDependents_ok declared m ds deps hds
          obtain ⟨inDeg1, deps1, heq, hlaw1, hlaw2⟩ := ih
            (fun k => if k = m then (ds.length : Int) else inDeg k) f
            (fun p hp => hall p (List.mem_cons_of_mem _ hp)) hnd.2
          refine ⟨inDeg1, deps1, ?_, ?_, ?_⟩
          · simp only [buildGraph, hf]
            exact heq
          · intro n
            by_cases hn : n = m
            · subst hn
              have hlem : (n == n) = true := beq_self_eq_true n
              simp only [List.lookup, hlem]
              rw [hlaw1 n, hmrest]
              simp
            · have hbeq : (n == m) = false := by
                simp [beq_eq_false_iff_ne, hn]
              simp only [List.lookup, hbeq]
              rw [hlaw1 n]
              cases hl : List.lookup n rest with
              | none => simp [if_neg hn]
              | some sd' => cases sd' <;> simp [if_neg hn]
          · intro dd nn
            rw [hlaw2 dd nn, addDependents_count declared m ds deps f hf dd nn,
              stepDeps_cons]
            by_cases hnn : nn = m
            · subst hnn
              have : stepDeps rest nn = [] := by
                unfold stepDeps
                rw [hmrest]
              rw [if_pos rfl, if_pos rfl, this]
              simp [StepDef.depsOf]
            · rw [if_neg hnn, if_neg hnn]
              omega

/-! ## `processDeps` specification -/

theorem processDeps_cons (d : String) (ds : List String) (f : String → Int)
    (acc : List String) :
    processDeps (d :: ds) f acc =
      processDeps ds (fun k => if k = d then f d - 1 else f k)
        (if f d - 1 = 0 then acc ++ [d] else acc) := rfl

theorem processDeps_deg : ∀ (r : List String) (f : String → Int)
    (acc : List String) (n : String),
    (processDeps r f acc).2 n = f n - (r.count n : Int) := by
  intro r
  induction r with
  | nil => intro f acc n; simp [processDeps]
  | cons d ds ih =>
      intro f acc n
      rw [processDeps_cons, ih]
      by_cases hnd : n = d
      · subst hnd
        simp only [if_pos rfl, List.count_cons_self]
        push_cast
        omega
      · rw [if_neg hnd, List.count_cons_of_ne hnd]

theorem processDeps_mem : ∀ (r : List String) (f : String → Int)
    (acc : List String) (n : String),
    n ∈ (processDeps r f acc).1 ↔
      n ∈ acc ∨ (1 ≤ f n ∧ f n ≤ (r.count n : Int)) := by
  intro r
  induction r with
  | nil =>
      intro f acc n
      simp only [processDeps, List.count_nil, Nat.cast_zero]
      constructor
      · exact fun h => Or.inl h
      · rintro (h | ⟨h1, h2⟩)
        · exact h
        · omega
  | cons d ds ih =>
      intro f acc n
      rw [processDeps_cons, ih]
      by_cases hnd : n = d
      · subst hnd
        simp only [if_pos rfl, List.count_cons_self]
        by_cases hz : f n - 1 = 0
        · simp only [if_pos hz, List.mem_append, List.mem_singleton]
          constructor
          · intro _
            refine Or.inr ⟨by omega, ?_⟩
            have : (0 : Int) ≤ (ds.count n : Int) := by positivity
            push_cast
            omega
          · intro _
            exact Or.inl (Or.inr trivial)
        · simp only [if_neg hz]
          constructor
          · rintro (h | ⟨h1, h2⟩)
            · exact Or.inl h
            · refine Or.inr ⟨by omega, by push_cast; omega⟩
          · rintro (h | ⟨h1, h2⟩)
            · exact Or.inl h
            · refine Or.inr ⟨by omega, by push_cast at h2 ⊢; omega⟩
      · rw [if_neg hnd, List.count_cons_of_ne hnd]
        by_cases hz : f d - 1 = 0
        · simp only [if_pos hz, List.mem_append, List.mem_singleton, if_neg hnd]
          constructor
          · rintro ((h | h) | h)
            · exact Or.inl h
            · exact absurd h hnd
            · exact Or.inr h
          · rintro (h | h)
            · exact Or.inl (Or.inl h)
            · exact Or.inr h
        · simp only [if_neg hz, if_neg hnd]

theorem processDeps_nodup : ∀ (r : List String) (f : String → Int)
    (acc : List String), acc.Nodup → (∀ n ∈ acc, f n ≤ 0) →
    (processDeps r f acc).1.Nodup := by
  intro r
  induction r with
  | nil => intro f acc h _; exact h
  | cons d ds ih =>
      intro f acc hnd hle
      rw [processDeps_cons]
      by_cases hz : f d - 1 = 0
      · rw [if_pos hz]
        refine ih _ _ ?_ ?_
        · refine List.Nodup.append hnd (List.nodup_singleton d) ?_
          intro x hx hxd
          rw [List.mem_singleton] at hxd
          subst hxd
          have := hle x hx
          omega
        · intro n hn
          rcases List.mem_append.mp hn with h | h
          · by_cases hnd' : n = d
            · subst hnd'
              rw [if_pos rfl]
              omega
            · rw [if_neg hnd']
              exact hle n h
          · rw [List.mem_singleton] at h
            subst h
            rw [if_pos rfl]
            omega
      · rw [if_neg hz]
        refine ih _ _ hnd ?_
        intro n hn
        by_cases hnd' : n = d
        · subst hnd'
          rw [if_pos rfl]
          have := hle n hn
          omega
        · rw [if_neg hnd']
          exact hle n hn

/-! ## Counting unresolved dependencies -/

theorem count_le_filterlen (p : List String) (c : String) (hc : c ∉ p) :
    ∀ l : List String, l.count c ≤ (l.filter (fun d => d ∉ p)).length := by
  intro l
  induction l with
  | nil => simp
  | cons x t ih =>
      by_cases hx : x = c
      · subst hx
        rw [List.count_cons_self, List.filter_cons_of_pos (by simp [hc])]
        simp only [List.length_cons]
        omega
      · rw [List.count_cons_of_ne (fun he => hx he.symm)]
        by_cases hxp : x ∈ p
        · rw [List.filter_cons_of_neg (by simp [hxp])]
          exact ih
        · rw [List.filter_cons_of_pos (by simp [hxp])]
          simp only [List.length_cons]
          omega

theorem all_unresolved_eq_of_count (p : List String) (c : String) (hc : c ∉ p) :
    ∀ l : List String, (l.filter (fun d => d ∉ p)).length ≤ l.count c →
    ∀ d ∈ l, d ∉ p → d = c := by
  intro l
  induction l with
  | nil => intro _ d hd _; exact absurd hd (List.not_mem_nil _)
  | cons x t ih =>
      intro h d hd hdp
      by_cases hxp : x ∈ p
      · rw [List.filter_cons_of_neg (by simp [hxp])] at h
        have hxc : x ≠ c := fun he => hc (he ▸ hxp)
        rw [List.count_cons_of_ne (fun he => hxc he.symm)] at h
        rcases List.mem_cons.mp hd with h' | h'
        · subst h'
          exact absurd hxp hdp
        · exact ih h d h' hdp
      · rw [List.filter_cons_of_pos (by simp [hxp])] at h
        simp only [List.length_cons] at h
        by_cases hxc : x = c
        · subst hxc
          rw [List.count_cons_self] at h
          rcases List.mem_cons.mp hd with h' | h'
          · exact h' ▸ rfl
          · exact ih (by omega) d h' hdp
        · rw [List.count_cons_of_ne (fun he => hxc he.symm)] at h
          have := count_le_filterlen p c hc t
          omega

theorem filterlen_snoc (p : List String) (c : String) (hc : c ∉ p) :
    ∀ l : List String,
    ((l.filter (fun d => d ∉ p ++ [c])).length : Int) =
      ((l.filter (fun d => d ∉ p)).length : Int) - (l.count c : Int) := by
  intro l
  induction l with
  | nil => simp
  | cons x t ih =>
      by_cases hxc : x = c
      · subst hxc
        rw [List.filter_cons_of_neg (by simp), List.filter_cons_of_pos (by simp [hc]),
          List.count_cons_self]
        simp only [List.length_cons]
        push_cast
        omega
      · by_cases hxp : x ∈ p
        · rw [List.filter_cons_of_neg (by simp [List.mem_append, hxp]),
            List.filter_cons_of_neg (by simp [hxp]),
            List.count_cons_of_ne (fun he => hxc he.symm)]
          exact ih
        · rw [List.filter_cons_of_pos (by simp [List.mem_append, hxp, hxc]),
            List.filter_cons_of_pos (by simp [hxp]),
            List.count_cons_of_ne (fun he => hxc he.symm)]
          simp only [List.length_cons]
          push_cast
          push_cast at ih
          omega

theorem filterlen_eq_count_of_all (p : List String) (c : String) (hc : c ∉ p) :
    ∀ l : List String, (∀ d ∈ l, d ∈ p ∨ d = c) →
    (l.filter (fun d => d ∉ p)).length = l.count c := by
  intro l
  induction l with
  | nil => intro _; simp
  | cons x t ih =>
      intro hall
      have hrest := fun d hd => hall d (List.mem_cons_of_mem _ hd)
      rcases hall x (List.mem_cons_self _ _) with hx | hx
      · have hxc : x ≠ c := fun he => hc (he ▸ hx)
        rw [List.filter_cons_of_neg (by simp [hx]),
          List.count_cons_of_ne (fun he => hxc he.symm)]
        exact ih hrest
      · subst hx
        rw [List.filter_cons_of_pos (by simp [hc]), List.count_cons_self]
        simp only [List.length_cons]
        rw [ih hrest]

theorem all_resolved_of_filterlen_zero {p : List String} :
    ∀ {l : List String}, (l.filter (fun d => d ∉ p)).length = 0 →
    ∀ d ∈ l, d ∈ p := by
  intro l h d hd
  rw [List.length_eq_zero] at h
  have := List.filter_eq_nil_iff.mp h d hd
  simpa using this

/-! ## Topological-sortedness of the processed list -/

theorem topoSorted_deps_mem {D : String → List String} {p : List String}
    (h : TopoSorted D p) : ∀ x ∈ p, ∀ d ∈ D x, d ∈ p := by
  intro x hx d hd
  obtain ⟨i, hi⟩ := List.mem_iff_get.mp hx
  rw [← hi] at hd
  exact List.take_subset _ _ (h i d hd)

theorem topoSorted_snoc {D : String → List String} {p : List String} {c : String}
    (h : TopoSorted D p) (hc : ∀ d ∈ D c, d ∈ p) : TopoSorted D (p ++ [c]) := by
  intro i d hd
  have hilt : i.val < p.length + 1 := by
    have := i.isLt
    simpa using this
  by_cases hi : i.val < p.length
  · have hget : (p ++ [c]).get i = p.get ⟨i.val, hi⟩ := by
      rw [List.get_eq_getElem, List.get_eq_getElem]
      exact List.getElem_append_left hi
    rw [hget] at hd
    have htake : (p ++ [c]).take i.val = p.take i.val := by
      rw [List.take_append_eq_append_take]
      have h0 : i.val - p.length = 0 := by omega
      rw [h0, List.take_zero, List.append_nil]
    rw [htake]
    exact h ⟨i.val, hi⟩ d hd
  · have hi' : i.val = p.length := by omega
    have hget : (p ++ [c]).get i = c := by
      rw [List.get_eq_getElem]
      rw [List.getElem_append_right (by omega)]
      simp [hi']
    rw [hget] at hd
    have htake : (p ++ [c]).take i.val = p := by
      rw [hi', List.take_append_eq_append_take, List.take_length, Nat.sub_self,
        List.take_zero, List.append_nil]
    rw [htake]
    exact hc d hd

theorem indexOf_lt_of_mem_take {b : String} :
    ∀ (l : List String) (i : Nat), b ∈ l.take i → l.indexOf b < i := by
  intro l
  induction l with
  | nil => intro i h; simp at h
  | cons x xs ih =>
      intro i h
      cases i with
      | zero => simp at h
      | succ j =>
          rw [List.take_succ_cons] at h
          by_cases hbx : b = x
          · subst hbx
            rw [List.indexOf_cons_self]
            omega
          · rcases List.mem_cons.mp h with h' | h'
            · exact absurd h' hbx
            · rw [List.indexOf_cons_ne _ (fun he => hbx he.symm)]
              have := ih j h'
              omega

/-! ## The Kahn loop preserves its invariant -/

theorem kahn_step_preserves {steps : List (String × StepDef)}
    {depsF : String → List String}
    (hG2 : ∀ dd nn, (depsF dd).count nn = (stepDeps steps nn).count dd)
    {c : String} {rest p : List String} {inDeg : String → Int}
    (hinv : KahnInv steps (c :: rest) p inDeg) :
    KahnInv steps (rest ++ (processDeps (depsF c) inDeg []).1)
      (p ++ [c]) (processDeps (depsF c) inDeg []).2 := by
  obtain ⟨h1, h2, h3, h4, h5, h6, h7, h8, h9⟩ := hinv
  have hcK : c ∈ keysOf steps := h5 c (List.mem_cons_self _ _)
  have hcp : c ∉ p := fun h => h3 c h (List.mem_cons_self _ _)
  have hcrest : c ∉ rest := (List.nodup_cons.mp h2).1
  have hrestnd : rest.Nodup := (List.nodup_cons.mp h2).2
  have hdepsP : ∀ x ∈ p, ∀ d ∈ stepDeps steps x, d ∈ p := topoSorted_deps_mem h8
  have hcount0 : ∀ n, n ∈ p ∨ n ∈ c :: rest → (depsF c).count n = 0 := by
    intro n hn
    rw [hG2, List.count_eq_zero]
    intro hcd
    rcases hn with h | h
    · exact hcp (hdepsP n h c hcd)
    · exact hcp (h7 n h c hcd)
  have hAmem : ∀ n, n ∈ (processDeps (depsF c) inDeg []).1 ↔
      1 ≤ inDeg n ∧ inDeg n ≤ ((depsF c).count n : Int) := by
    intro n
    rw [processDeps_mem]
    simp [List.not_mem_nil]
  have hAnotp : ∀ n ∈ (processDeps (depsF c) inDeg []).1, n ∉ p := by
    intro n hn hmem
    have h0 := hcount0 n (Or.inl hmem)
    have hm := (hAmem n).mp hn
    rw [h0] at hm
    push_cast at hm
    omega
  have hAnotq : ∀ n ∈ (processDeps (depsF c) inDeg []).1, n ∉ c :: rest := by
    intro n hn hmem
    have h0 := hcount0 n (Or.inr hmem)
    have hm := (hAmem n).mp hn
    rw [h0] at hm
    push_cast at hm
    omega
  have hAK : ∀ n ∈ (processDeps (depsF c) inDeg []).1, n ∈ keysOf steps := by
    intro n hn
    have hm := (hAmem n).mp hn
    have hcnt : 1 ≤ ((depsF c).count n : Int) := le_trans hm.1 hm.2
    have hne : stepDeps steps n ≠ [] := by
      intro hnil
      have := hG2 c n
      rw [hnil] at this
      simp at this
      rw [this] at hcnt
      norm_num at hcnt
    exact mem_keys_of_stepDeps_ne_nil hne
  have hAdeps : ∀ n ∈ (processDeps (depsF c) inDeg []).1,
      ∀ d ∈ stepDeps steps n, d ∈ p ++ [c] := by
    intro n hn d hd
    have hm := (hAmem n).mp hn
    have hle : ((stepDeps steps n).filter (fun d => d ∉ p)).length ≤
        (stepDeps steps n).count c := by
      have h2' := hm.2
      rw [h6 n, hG2] at h2'
      exact_mod_cast h2'
    by_cases hdp : d ∈ p
    · exact List.mem_append.mpr (Or.inl hdp)
    · have := all_unresolved_eq_of_count p c hcp (stepDeps steps n) hle d hd hdp
      subst this
      exact List.mem_append.mpr (Or.inr (List.mem_singleton.mpr rfl))
  have hf'law : ∀ n, (processDeps (depsF c) inDeg []).2 n =
      (((stepDeps steps n).filter (fun d => d ∉ p ++ [c])).length : Int) := by
    intro n
    rw [processDeps_deg, h6, filterlen_snoc p c hcp (stepDeps steps n)]
    have hgc := hG2 c n
    omega
  have hAnodup : (processDeps (depsF c) inDeg []).1.Nodup :=
    processDeps_nodup _ _ _ List.nodup_nil (by intro n hn; simp at hn)
  refine ⟨?_, ?_, ?_, ?_, ?_, ?_, ?_, ?_, ?_⟩
  · exact List.Nodup.append h1 (List.nodup_singleton c)
      (fun a ha hb => hcp ((List.mem_singleton.mp hb) ▸ ha))
  · exact List.Nodup.append hrestnd hAnodup
      (fun a ha hb => hAnotq a hb (List.mem_cons_of_mem _ ha))
  · intro x hx hmem
    rcases List.mem_append.mp hmem with hr | hA
    · rcases List.mem_append.mp hx with hp | hc'
      · exact h3 x hp (List.mem_cons_of_mem _ hr)
      · exact hcrest ((List.mem_singleton.mp hc') ▸ hr)
    · rcases List.mem_append.mp hx with hp | hc'
      · exact hAnotp x hA hp
      · exact hAnotq x hA ((List.mem_singleton.mp hc') ▸
          List.mem_cons_self _ _)
  · intro x hx
    rcases List.mem_append.mp hx with hp | hc'
    · exact h4 x hp
    · exact (List.mem_singleton.mp hc') ▸ hcK
  · intro x hx
    rcases List.mem_append.mp hx with hr | hA
    · exact h5 x (List.mem_cons_of_mem _ hr)
    · exact hAK x hA
  · exact hf'law
  · intro n hn d hd
    rcases List.mem_append.mp hn with hr | hA
    · exact List.mem_append.mpr
        (Or.inl (h7 n (List.mem_cons_of_mem _ hr) d hd))
    · exact hAdeps n hA d hd
  · exact topoSorted_snoc h8 (h7 c (List.mem_cons_self _ _))
  · intro n hnK hnp hnq
    have hnp' : n ∉ p := fun h => hnp (List.mem_append.mpr (Or.inl h))
    have hnc : n ≠ c := fun h =>
      hnp (List.mem_append.mpr (Or.inr (List.mem_singleton.mpr h)))
    have hnrest : n ∉ rest := fun h => hnq (List.mem_append.mpr (Or.inl h))
    have hnA : n ∉ (processDeps (depsF c) inDeg []).1 :=
      fun h => hnq (List.mem_append.mpr (Or.inr h))
    have hold := h9 n hnK hnp' (by
      intro h
      rcases List.mem_cons.mp h with h | h
      · exact hnc h
      · exact hnrest h)
    by_contra hall
    push_neg at hall
    have hall' : ∀ d ∈ stepDeps steps n, d ∈ p ∨ d = c := by
      intro d hd
      rcases List.mem_append.mp (hall d hd) with h | h
      · exact Or.inl h
      · exact Or.inr (List.mem_singleton.mp h)
    have heq := filterlen_eq_count_of_all p c hcp (stepDeps steps n) hall'
    obtain ⟨d, hd, hdp⟩ := hold
    have hdc : d = c := by
      rcases hall' d hd with h | h
      · exact absurd h hdp
      · exact h
    have hcmem : c ∈ stepDeps steps n := hdc ▸ hd
    have hcnt : 1 ≤ (stepDeps steps n).count c := by
      by_contra hlt
      push_neg at hlt
      have h0 : (stepDeps steps n).count c = 0 := by omega
      exact (List.count_eq_zero.mp h0) hcmem
    refine hnA ((hAmem n).mpr ⟨?_, ?_⟩)
    · rw [h6 n, heq]
      exact_mod_cast hcnt
    · rw [h6 n, heq, hG2]

theorem kahnLoop_cons (depsF : String → List String) (fuel : Nat)
    (c : String) (rest : List String) (inDeg : String → Int) (p : List String) :
    kahnLoop depsF (fuel + 1) (c :: rest) inDeg p =
      kahnLoop depsF fuel (rest ++ (processDeps (depsF c) inDeg []).1)
        (processDeps (depsF c) inDeg []).2 (p ++ [c]) := rfl

theorem kahnLoop_master {steps : List (String × StepDef)}
    {depsF : String → List String}
    (hG2 : ∀ dd nn, (depsF dd).count nn = (stepDeps steps nn).count dd) :
    ∀ (fuel : Nat) (q p : List String) (inDeg : String → Int),
    KahnInv steps q p inDeg →
    (keysOf steps).length + 1 ≤ fuel + p.length →
    KahnEnd steps (kahnLoop depsF fuel q inDeg p) := by
  intro fuel
  induction fuel with
  | zero =>
      intro q p inDeg hinv hbound
      obtain ⟨h1, _, _, h4, _⟩ := hinv
      have hle : p.length ≤ (keysOf steps).length :=
        (List.Nodup.subperm h1 h4).length_le
      omega
  | succ fuel ih =>
      intro q p inDeg hinv hbound
      cases q with
      | nil =>
          obtain ⟨h1, _, _, h4, _, _, _, h8, h9⟩ := hinv
          show KahnEnd steps p
          exact ⟨h1, h4, h8, fun n hn hnp => h9 n hn hnp (List.not_mem_nil n)⟩
      | cons c rest =>
          rw [kahnLoop_cons]
          refine ih _ _ _ (kahn_step_preserves hG2 hinv) ?_
          rw [List.length_append, List.length_singleton]
          omega

/-! ## Kahn soundness: nodes on a cycle are never consumed -/

theorem topo_step_lt {D : String → List String} {p : List String}
    (hts : TopoSorted D p) {a b : String} (hb : b ∈ D a) (ha : a ∈ p) :
    b ∈ p ∧ p.indexOf b < p.indexOf a := by
  have hlt : p.indexOf a < p.length := List.indexOf_lt_length.mpr ha
  have hget := List.indexOf_get hlt
  have hmem : b ∈ p.take (p.indexOf a) := by
    apply hts ⟨p.indexOf a, hlt⟩
    rw [hget]
    exact hb
  exact ⟨List.take_subset _ _ hmem, indexOf_lt_of_mem_take p _ hmem⟩

theorem transGen_step_lt {D : String → List String} {p : List String}
    (hts : TopoSorted D p) {a b : String}
    (h : Relation.TransGen (fun x y => y ∈ D x) a b) :
    a ∈ p → b ∈ p ∧ p.indexOf b < p.indexOf a := by
  induction h with
  | single hab => exact fun ha => topo_step_lt hts hab ha
  | tail _ hbc ih =>
      intro ha
      obtain ⟨hb, hlt⟩ := ih ha
      obtain ⟨hc, hlt'⟩ := topo_step_lt hts hbc hb
      exact ⟨hc, lt_trans hlt' hlt⟩

theorem cycle_not_mem {D : String → List String} {p : List String}
    (hts : TopoSorted D p) {n : String}
    (hcyc : Relation.TransGen (fun x y => y ∈ D x) n n) : n ∉ p :=
  fun hn => lt_irrefl _ (transGen_step_lt hts hcyc hn).2

theorem transGen_exists_first {R : String → String → Prop} {a b : String}
    (h : Relation.TransGen R a b) : ∃ x, R a x := by
  induction h with
  | single hab => exact ⟨_, hab⟩
  | tail _ _ ih => exact ih

theorem nodup_subset_length_lt {p K : List String} (hnp : p.Nodup)
    (hnk : K.Nodup) (hsub : ∀ x ∈ p, x ∈ K) {n : String} (hnK : n ∈ K)
    (hnpn : n ∉ p) : p.length < K.length := by
  have hsub' : p ⊆ K.erase n := by
    intro x hx
    rw [List.Nodup.mem_erase_iff hnk]
    exact ⟨fun he => hnpn (he ▸ hx), hsub x hx⟩
  have hle : p.length ≤ (K.erase n).length :=
    (List.Nodup.subperm hnp hsub').length_le
  rw [List.length_erase_of_mem hnK] at hle
  have hpos : 1 ≤ K.length :=
    List.length_pos.mpr (List.ne_nil_of_mem hnK)
  omega

/-! ## `cycleCheck` on well-formed graphs -/

theorem kahn_initial_inv {steps : List (String × StepDef)}
    (hnd : (keysOf steps).Nodup) {inDeg1 : String → Int}
    (hG1 : ∀ n, inDeg1 n = ((stepDeps steps n).length : Int)) :
    KahnInv steps ((keysOf steps).filter (fun k => inDeg1 k = 0)) []
      inDeg1 := by
  refine ⟨List.nodup_nil, List.Nodup.filter _ hnd, ?_, ?_, ?_, ?_, ?_, ?_, ?_⟩
  · intro x hx
    exact absurd hx (List.not_mem_nil x)
  · intro x hx
    exact absurd hx (List.not_mem_nil x)
  · intro x hx
    exact List.mem_of_mem_filter hx
  · intro n
    rw [hG1 n]
    have hfe : (stepDeps steps n).filter (fun d => d ∉ ([] : List String)) =
        stepDeps steps n :=
      List.filter_eq_self.mpr (by intro a _; simp)
    rw [hfe]
  · intro n hn d hd
    have hz := (List.mem_filter.mp hn).2
    rw [decide_eq_true_eq] at hz
    rw [hG1 n] at hz
    have hnil : stepDeps steps n = [] :=
      List.length_eq_zero.mp (by exact_mod_cast hz)
    rw [hnil] at hd
    exact absurd hd (List.not_mem_nil d)
  · intro i
    exact absurd i.isLt (by simp)
  · intro n hnK hnp hnq
    have hnz : ¬ inDeg1 n = 0 := by
      intro h0
      exact hnq (List.mem_filter.mpr ⟨hnK, by simp [h0]⟩)
    rw [hG1 n] at hnz
    have hne : stepDeps steps n ≠ [] := by
      intro h
      rw [h] at hnz
      simp at hnz
    obtain ⟨d, hd⟩ := List.exists_mem_of_ne_nil _ hne
    exact ⟨d, hd, List.not_mem_nil d⟩

theorem cycleCheck_error_of_cycle {steps : List (String × StepDef)}
    (hnd : (keysOf steps).Nodup)
    (hdecl : ∀ p ∈ steps, ∀ d ∈ p.2.depsOf, d ∈ keysOf steps)
    (hcyc : HasCycle steps) :
    cycleCheck steps = .error recursiveDepMsg := by
  obtain ⟨inDeg1, deps1, hbg, hlaw1, hlaw2⟩ :=
    buildGraph_ok_spec (keysOf steps) steps (fun _ => 0) (fun _ => []) hdecl hnd
  have hG1 : ∀ n, inDeg1 n = ((stepDeps steps n).length : Int) := by
    intro n
    rw [hlaw1 n]
    unfold stepDeps
    cases hl : List.lookup n steps with
    | none => simp
    | some sd => cases sd <;> simp [StepDef.depsOf]
  have hG2 : ∀ dd nn, (deps1 dd).count nn = (stepDeps steps nn).count dd := by
    intro dd nn
    have := hlaw2 dd nn
    simpa using this
  have hend : KahnEnd steps
      (kahnLoop deps1 (steps.length + 1)
        ((keysOf steps).filter (fun k => inDeg1 k = 0)) inDeg1 []) :=
    kahnLoop_master hG2 (steps.length + 1) _ [] inDeg1
      (kahn_initial_inv hnd hG1)
      (by simp [keysOf, List.length_map])
  obtain ⟨n, hn⟩ := hcyc
  have hnK : n ∈ keysOf steps := by
    obtain ⟨x, hx⟩ := transGen_exists_first hn
    exact mem_keys_of_stepDeps_ne_nil (List.ne_nil_of_mem hx)
  have hnp : n ∉ kahnLoop deps1 (steps.length + 1)
      ((keysOf steps).filter (fun k => inDeg1 k = 0)) inDeg1 [] :=
    cycle_not_mem hend.2.2.1 hn
  have hlen : (kahnLoop deps1 (steps.length + 1)
      ((keysOf steps).filter (fun k => inDeg1 k = 0)) inDeg1 []).length <
      (keysOf steps).length :=
    nodup_subset_length_lt hend.1 hnd hend.2.1 hnK hnp
  have hkl : (keysOf steps).length = steps.length := List.length_map _ _
  simp only [cycleCheck, hbg]
  rw [if_neg (by omega)]

/-- C2 (counterexample): the graph
`{a: ["b", fn], b: ["a", fn], c: ["zz", fn]}` contains the 2-cycle
`a ↔ b`, yet the run fails with the undefined-dependency error for
`c`/`zz` (the graph-building phase throws before Kahn's algorithm
runs), whose message does not mention "recursive dependency" — refuting
the claim for graphs that also contain an undeclared dependency. -/
theorem cycle_claim_counterexample :
    HasCycle [("a", .withDeps ["b"]), ("b", .withDeps ["a"]),
      ("c", .withDeps ["zz"])] ∧
    workflowDriver "wf" [("a", .withDeps ["b"]), ("b", .withDeps ["a"]),
        ("c", .withDeps ["zz"])] ([] : List (String × Nat)) (fun _ => 0) =
      .error (mkUndefinedDepMsg "c" "zz") ∧
    mentions (mkUndefinedDepMsg "c" "zz") "recursive dependency" = false := by
  have h1 : DepOn [("a", .withDeps ["b"]), ("b", .withDeps ["a"]),
      ("c", .withDeps ["zz"])] "a" "b" := by
    show ("b" : String) ∈ stepDeps [("a", .withDeps ["b"]),
      ("b", .withDeps ["a"]), ("c", .withDeps ["zz"])] "a"
    decide
  have h2 : DepOn [("a", .withDeps ["b"]), ("b", .withDeps ["a"]),
      ("c", .withDeps ["zz"])] "b" "a" := by
    show ("a" : String) ∈ stepDeps [("a", .withDeps ["b"]),
      ("b", .withDeps ["a"]), ("c", .withDeps ["zz"])] "b"
    decide
  exact ⟨⟨"a", Relation.TransGen.head h1 (Relation.TransGen.single h2)⟩,
    rfl, rfl⟩

/-- C2 (amended): for a step graph whose declared dependencies all
reference declared step names, the presence of a dependency cycle makes
the run driver fail — before any step is dispatched, straight from
`cycleCheck` — with the error
`"workflow() cannot execute steps due to a recursive dependency"`,
whose message mentions "recursive dependency". -/
theorem cycle_detected_before_dispatch {V : Type} (wfName : String)
    (steps : List (String × StepDef)) (fetched : List (String × V))
    (hres : String → V) (hnd : (keysOf steps).Nodup)
    (hdecl : ∀ p ∈ steps, ∀ d ∈ p.2.depsOf, d ∈ keysOf steps)
    (hcyc : HasCycle steps) :
    workflowDriver wfName steps fetched hres = .error recursiveDepMsg ∧
    mentions recursiveDepMsg "recursive dependency" = true :=
  ⟨workflowDriver_error_of_cycleCheck_error wfName fetched hres
    (cycleCheck_error_of_cycle hnd hdecl hcyc), rfl⟩

/-- Witness for `cycle_detected_before_dispatch`: the 2-cycle
`{a: ["b", fn], b: ["a", fn]}`. -/
theorem cycle_detected_before_dispatch_witness :
    workflowDriver "wf" [("a", .withDeps ["b"]), ("b", .withDeps ["a"])]
      ([] : List (String × Nat)) (fun _ => 0) = .error recursiveDepMsg :=
  (cycle_detected_before_dispatch "wf"
    [("a", .withDeps ["b"]), ("b", .withDeps ["a"])] [] (fun _ => 0)
    (by decide) (by decide)
    ⟨"a", Relation.TransGen.head
      (show ("b" : String) ∈ stepDeps
        [("a", .withDeps ["b"]), ("b", .withDeps ["a"])] "a" by decide)
      (Relation.TransGen.single
        (show ("a" : String) ∈ stepDeps
          [("a", .withDeps ["b"]), ("b", .withDeps ["a"])] "b" by decide))⟩).1

/-! ## Kahn completeness on acyclic graphs -/

end PlanLlama
